import Mathlib

/-!
# Verification of `monodromy/xx_decompose/circuits.py`

A shallow embedding of the circuit back-solving and assembly code of the
`monodromy` repository (`xx_decompose/circuits.py`), together with theorems
settling the claims about it.

Modelling conventions:
* Python floats are modelled as real numbers (`ℝ`); complex phases as `ℂ`.
* `NaN` propagation is modelled with `Option`: `np.arccos` applied outside
  `[-1, 1]`, and float division by zero feeding `arccos`, yield `none`.
* Quantum circuits are modelled as ordered gate lists on a fixed two-wire
  register; composition is list append and `QuantumCircuit.inverse` is
  "reverse the list and negate each rotation angle".
* The alcove-to-canonical coordinate transform
  (`alcove_to_positive_canonical_coordinate`, from `monodromy/coordinates.py`,
  outside the embedded file) is threaded through as an explicit function
  parameter `a2c`, so every theorem holds for an arbitrary transform.
* The catalog data plumbing (`OperationPolytopeData`, its `equalities`) is
  outside the embedded file; an `OpEntry` carries the extracted alcove
  coordinate directly.  Python raises `KeyError` for a path label missing
  from the catalog; the table functions here are total with a zero/empty
  default, and no claim exercises that case.
-/

set_option maxHeartbeats 1600000

namespace Monodromy

/-! ## Gates and circuits -/

/-- The single-qubit rotation kinds used by the source file (RXGate, RYGate,
RZGate from qiskit). -/
inductive GateKind
  | rx
  | ry
  | rz
deriving DecidableEq

/-- One gate application: a rotation kind, its angle, and the wire (0 or 1)
it acts on. -/
structure Gate where
  kind : GateKind
  angle : ℝ
  wire : ℕ

/-- A circuit on the fixed two-wire register, as a time-ordered gate list. -/
abbrev Circuit := List Gate

/-- Inverse of a single rotation gate (`rx(θ)⁻¹ = rx(-θ)`, etc.). -/
def invGate (g : Gate) : Gate :=
  ⟨g.kind, -g.angle, g.wire⟩

/-- `QuantumCircuit.inverse`: reverse the gate order and invert each gate. -/
def invCircuit (c : Circuit) : Circuit :=
  (c.reverse).map invGate

/-! ## Numeric helpers from the source -/

/-- `np.mod(a, m)` for real arguments: `a - m * ⌊a / m⌋`. -/
noncomputable def fmod (a m : ℝ) : ℝ := a - m * ⌊a / m⌋

/-- `nearp(x, y, modulus, epsilon)` from the source: checks whether two points
are near each other, accounting for float jitter and wraparound.  The source
defaults are `modulus = π/2` and `epsilon = 1e-2`; the one call site passes
`modulus = π` and keeps the default `epsilon`. -/
noncomputable def nearp (x y modulus eps : ℝ) : Prop :=
  |fmod |x - y| modulus| < eps ∨ |fmod |x - y| modulus - modulus| < eps

noncomputable instance nearpDecidable (x y m e : ℝ) : Decidable (nearp x y m e) := by
  unfold nearp
  infer_instance

/-- `safe_arccos(numerator, denominator)` from the source: computes
`arccos(n/d)` with special cases near the domain boundary.  The float version
returns `NaN` (modelled as `none`) from the final branch exactly when the
denominator is zero or the quotient lands outside `[-1, 1]`. -/
noncomputable def safe_arccos (numerator denominator : ℝ) : Option ℝ :=
  if |numerator| > |denominator| ∧ |numerator - denominator| < 5 / 1000 then
    some 0
  else if |numerator| > |denominator| ∧ |numerator + denominator| < 5 / 1000 then
    some Real.pi
  else if denominator = 0 ∨ 1 < |numerator| / |denominator| then
    none
  else
    some (Real.arccos (numerator / denominator))

/-! ## Symmetry tables (`reflection_options`, `shift_options`) -/

/-- Keys of the `reflection_options` table, in declaration order. -/
inductive ReflName
  | noReflection
  | reflectXXYY
  | reflectXXZZ
  | reflectYYZZ
deriving DecidableEq

/-- Keys of the `shift_options` table, in declaration order. -/
inductive ShiftName
  | noShift
  | zShift
  | yShift
  | yzShift
  | xShift
  | xzShift
  | xyShift
  | xyzShift
deriving DecidableEq

/-- The reflection table's key order (Python dict insertion order). -/
def reflNames : List ReflName :=
  [.noReflection, .reflectXXYY, .reflectXXZZ, .reflectYYZZ]

/-- The shift table's key order (Python dict insertion order). -/
def shiftNames : List ShiftName :=
  [.noShift, .zShift, .yShift, .yzShift, .xShift, .xzShift, .xyShift, .xyzShift]

/-- Sign vectors of `reflection_options`. -/
noncomputable def reflScalars : ReflName → ℝ × ℝ × ℝ
  | .noReflection => (1, 1, 1)
  | .reflectXXYY => (-1, -1, 1)
  | .reflectXXZZ => (-1, 1, -1)
  | .reflectYYZZ => (1, -1, -1)

/-- Global-phase multipliers of `reflection_options`. -/
noncomputable def reflPhase : ReflName → ℂ
  | .noReflection => 1
  | .reflectXXYY => 1
  | .reflectXXZZ => 1
  | .reflectYYZZ => -1

/-- Gate generators of `reflection_options`. -/
def reflGates : ReflName → List GateKind
  | .noReflection => []
  | .reflectXXYY => [.rz]
  | .reflectXXZZ => [.ry]
  | .reflectYYZZ => [.rx]

/-- Selector vectors of `shift_options` (which axes get a `π/2` offset). -/
noncomputable def shiftScalars : ShiftName → ℝ × ℝ × ℝ
  | .noShift => (0, 0, 0)
  | .zShift => (0, 0, 1)
  | .yShift => (0, 1, 0)
  | .yzShift => (0, 1, 1)
  | .xShift => (1, 0, 0)
  | .xzShift => (1, 0, 1)
  | .xyShift => (1, 1, 0)
  | .xyzShift => (1, 1, 1)

/-- Global-phase multipliers of `shift_options`. -/
noncomputable def shiftPhase : ShiftName → ℂ
  | .noShift => 1
  | .zShift => Complex.I
  | .yShift => -Complex.I
  | .yzShift => -1
  | .xShift => -Complex.I
  | .xzShift => 1
  | .xyShift => -1
  | .xyzShift => -Complex.I

/-- Gate generators of `shift_options`. -/
def shiftGates : ShiftName → List GateKind
  | .noShift => []
  | .zShift => [.rz]
  | .yShift => [.ry]
  | .yzShift => [.ry, .rz]
  | .xShift => [.rx]
  | .xzShift => [.rx, .rz]
  | .xyShift => [.rx, .ry]
  | .xyzShift => [.rx, .ry, .rz]

/-- The circuit built by `apply_reflection`: each generator at angle `π` on
wire 0 only. -/
noncomputable def reflCircuit (rn : ReflName) : Circuit :=
  (reflGates rn).map (fun k => ⟨k, Real.pi, 0⟩)

/-- The coordinate action of `apply_reflection`: componentwise multiplication
by the sign vector. -/
noncomputable def reflectCoord (rn : ReflName) (c : ℝ × ℝ × ℝ) : ℝ × ℝ × ℝ :=
  ((reflScalars rn).1 * c.1, (reflScalars rn).2.1 * c.2.1, (reflScalars rn).2.2 * c.2.2)

/-- The circuit built by `apply_shift`: each generator at angle `π` on wire 0
and then on wire 1. -/
noncomputable def shiftCircuit (sn : ShiftName) : Circuit :=
  ((shiftGates sn).map (fun k => [(⟨k, Real.pi, 0⟩ : Gate), ⟨k, Real.pi, 1⟩])).flatten

/-- The coordinate action of `apply_shift`: `π/2 * selector + coordinate`
per axis. -/
noncomputable def shiftCoord (sn : ShiftName) (c : ℝ × ℝ × ℝ) : ℝ × ℝ × ℝ :=
  (Real.pi / 2 * (shiftScalars sn).1 + c.1,
   Real.pi / 2 * (shiftScalars sn).2.1 + c.2.1,
   Real.pi / 2 * (shiftScalars sn).2.2 + c.2.2)

/-- `canonical_rotation_circuit(first_index, second_index, q)` from the
source: six handled ordered index pairs; any other input falls through every
branch and returns the empty circuit. -/
noncomputable def canonical_rotation_circuit (first_index second_index : ℤ) : Circuit :=
  if ((0 : ℤ), (1 : ℤ)) = (first_index, second_index) then
    []
  else if ((0 : ℤ), (2 : ℤ)) = (first_index, second_index) then
    [⟨.rx, -(Real.pi / 2), 0⟩, ⟨.rx, Real.pi / 2, 1⟩]
  else if ((1 : ℤ), (0 : ℤ)) = (first_index, second_index) then
    [⟨.rz, -(Real.pi / 2), 0⟩, ⟨.rz, -(Real.pi / 2), 1⟩]
  else if ((1 : ℤ), (2 : ℤ)) = (first_index, second_index) then
    [⟨.rz, Real.pi / 2, 0⟩, ⟨.rz, Real.pi / 2, 1⟩, ⟨.ry, Real.pi / 2, 0⟩, ⟨.ry, -(Real.pi / 2), 1⟩]
  else if ((2 : ℤ), (0 : ℤ)) = (first_index, second_index) then
    [⟨.rz, Real.pi / 2, 0⟩, ⟨.rz, Real.pi / 2, 1⟩, ⟨.rx, Real.pi / 2, 0⟩, ⟨.rx, -(Real.pi / 2), 1⟩]
  else if ((2 : ℤ), (1 : ℤ)) = (first_index, second_index) then
    [⟨.ry, Real.pi / 2, 0⟩, ⟨.ry, -(Real.pi / 2), 1⟩]
  else
    []

/-! ## Matrices for the trigonometric backsolver -/

/-- Modelled from the spec: the single-axis Z-rotation matrix builder
(`rz_matrix`, from `monodromy/static/matrices.py`, outside the embedded
file).  The spec's circuit identity uses local Z rotations; the exact sign
convention only affects the numeric values of the solved angles, which no
claim inspects. -/
noncomputable def rz_matrix (t : ℝ) : Matrix (Fin 2) (Fin 2) ℂ :=
  !![Complex.exp (t * Complex.I), 0; 0, Complex.exp (-t * Complex.I)]

/-- Modelled from the spec: the canonical two-qubit unitary
`exp(i(a·XX + b·YY + c·ZZ))` (`canonical_matrix`, from
`monodromy/static/matrices.py`, outside the embedded file), written out in the
computational basis. -/
noncomputable def canonical_matrix (a b c : ℝ) : Matrix (Fin 4) (Fin 4) ℂ :=
  !![Complex.exp (c * Complex.I) * (Real.cos (a - b) : ℂ), 0, 0,
       Complex.I * Complex.exp (c * Complex.I) * (Real.sin (a - b) : ℂ);
     0, Complex.exp (-c * Complex.I) * (Real.cos (a + b) : ℂ),
       Complex.I * Complex.exp (-c * Complex.I) * (Real.sin (a + b) : ℂ), 0;
     0, Complex.I * Complex.exp (-c * Complex.I) * (Real.sin (a + b) : ℂ),
       Complex.exp (-c * Complex.I) * (Real.cos (a + b) : ℂ), 0;
     Complex.I * Complex.exp (c * Complex.I) * (Real.sin (a - b) : ℂ), 0, 0,
       Complex.exp (c * Complex.I) * (Real.cos (a - b) : ℂ)]

/-- `np.kron` for a pair of 2×2 matrices. -/
noncomputable def kron (A B : Matrix (Fin 2) (Fin 2) ℂ) : Matrix (Fin 4) (Fin 4) ℂ :=
  fun i j =>
    A ⟨i.val / 2, by omega⟩ ⟨j.val / 2, by omega⟩ * B ⟨i.val % 2, by omega⟩ ⟨j.val % 2, by omega⟩

/-- `decompose_xxyy_into_xxyy_xx(a_target, b_target, a1, b1, a2)` from the
source.  Returns the six angles `(r, s, u, v, x, y)`; `none` models the NaN
outcome (the final NaN check in the caller fails exactly when one of the two
`safe_arccos` calls produced NaN, since every other quantity is finite). -/
noncomputable def decompose_xxyy_into_xxyy_xx (a_target b_target a1 b1 a2 : ℝ) :
    Option (ℝ × ℝ × ℝ × ℝ × ℝ × ℝ) :=
  let cplus := Real.cos (a1 + b1)
  let cminus := Real.cos (a1 - b1)
  let splus := Real.sin (a1 + b1)
  let sminus := Real.sin (a1 - b1)
  let ca := Real.cos a2
  let sa := Real.sin a2
  match safe_arccos (cminus ^ 2 * ca ^ 2 + sminus ^ 2 * sa ^ 2 - Real.cos (a_target - b_target) ^ 2)
          (2 * cminus * ca * sminus * sa),
        safe_arccos (cplus ^ 2 * ca ^ 2 + splus ^ 2 * sa ^ 2 - Real.cos (a_target + b_target) ^ 2)
          (2 * cplus * ca * splus * sa) with
  | some acos1, some acos2 =>
    let uplusv := 1 / 2 * acos1
    let uminusv := 1 / 2 * acos2
    let u := (uplusv + uminusv) / 2
    let v := (uplusv - uminusv) / 2
    let middle := canonical_matrix a1 b1 0 * kron (rz_matrix u) (rz_matrix v) * canonical_matrix a2 0 0
    let p0 := Complex.arg (middle 0 0)
    let p1 := Complex.arg (middle 1 1)
    let p2 := Complex.arg (middle 1 2) + Real.pi / 2
    let p3 := Complex.arg (middle 0 3) + Real.pi / 2
    let r := (p0 + p1 + p2 + p3) / 4
    let s := (p0 - p1 - p2 + p3) / 4
    let x := (p0 + p1 - p2 - p3) / 4
    let y := (p0 - p1 + p2 - p3) / 4
    let generated := kron (rz_matrix r) (rz_matrix s) * middle * kron (rz_matrix x) (rz_matrix y)
    if (|Complex.arg (generated 3 0) - Real.pi / 2| < 1 / 100 ∧ b_target < a_target) ∨
        (|Complex.arg (generated 3 0) + Real.pi / 2| < 1 / 100 ∧ a_target < b_target) then
      some (r - Real.pi / 4, s - Real.pi / 4, u, v, x + Real.pi / 4, y + Real.pi / 4)
    else
      some (r, s, u, v, x, y)
  | _, _ => none

/-! ## The per-hop symmetry search -/

/-- Coordinate indexing: `coordAt c i` is the Python `c[i]` for the coordinate
triples handled by the search (`i ∈ {0, 1, 2}` at every reachable call). -/
def coordAt (c : ℝ × ℝ × ℝ) : ℤ → ℝ
  | 0 => c.1
  | 1 => c.2.1
  | 2 => c.2.2
  | _ => 0

/-- The row-major axis-pair scan order of the source. -/
def pairList : List (ℤ × ℤ) :=
  [(0, 0), (0, 1), (0, 2), (1, 0), (1, 1), (1, 2), (2, 0), (2, 1), (2, 2)]

/-- `[x for x in [0, 1, 2] if x != shared]`, unpacked into an ordered pair.
(The fallback is unreachable: `shared` always comes from `pairList`.) -/
def othersOf (shared : ℤ) : ℤ × ℤ :=
  match (([0, 1, 2] : List ℤ).filter (fun z => z ≠ shared)) with
  | [a, b] => (a, b)
  | _ => (0, 0)

/-- Everything the loop in `xx_circuit_from_decomposition` has in hand when it
breaks out with a success: the chosen reflection and shift, the retained
index pairs, and the six backsolved angles. -/
structure Sol where
  reflName : ReflName
  shiftName : ShiftName
  sourceFirst : ℤ
  sourceSecond : ℤ
  targetFirst : ℤ
  targetSecond : ℤ
  r : ℝ
  s : ℝ
  u : ℝ
  v : ℝ
  x : ℝ
  y : ℝ

/-- One iteration of the body of the double loop: apply the named reflection
and shift to the source coordinate, scan the nine axis pairs row-major for
the first coincidence mod `π` (`nearp`, tolerance `1e-2`), and backsolve;
`none` when there is no coinciding pair or the backsolve is NaN. -/
noncomputable def comboResult (src tgt : ℝ × ℝ × ℝ) (a2 : ℝ) (rn : ReflName) (sn : ShiftName) :
    Option Sol :=
  let shifted := shiftCoord sn (reflectCoord rn src)
  match pairList.findSome?
      (fun p => if nearp (coordAt shifted p.1) (coordAt tgt p.2) Real.pi (1 / 100)
                then some p else none) with
  | none => none
  | some (i, j) =>
    let sf := (othersOf i).1
    let ss := (othersOf i).2
    let tf := (othersOf j).1
    let ts := (othersOf j).2
    match decompose_xxyy_into_xxyy_xx (coordAt tgt tf) (coordAt tgt ts)
            (coordAt shifted sf) (coordAt shifted ss) a2 with
    | none => none
    | some (r, s, u, v, x, y) => some ⟨rn, sn, sf, ss, tf, ts, r, s, u, v, x, y⟩

/-- The double loop over `reflection_options × shift_options`, with the
source's break/continue structure: first success wins, table order. -/
noncomputable def searchHop (src tgt : ℝ × ℝ × ℝ) (a2 : ℝ) : Option Sol :=
  reflNames.findSome? (fun rn => shiftNames.findSome? (fun sn => comboResult src tgt a2 rn sn))

/-! ## The circuit assembler -/

/-- An alcove coordinate triple. -/
abbrev Alcove := ℝ × ℝ × ℝ

/-- A catalog entry: operation label, its alcove coordinate (as extracted from
the polytope equalities), and its precomputed native circuit fragment. -/
structure OpEntry where
  label : String
  alcove : Alcove
  circuit : Circuit

/-- One decomposition hop `(source_alcove_coord, operation, target_alcove_coord)`. -/
structure Hop where
  src : Alcove
  op : String
  tgt : Alcove

/-- The failure modes of `xx_circuit_from_decomposition`: the XX-type
precondition `assert`, and the `NoBacksolution` signal. -/
inductive SynthError
  | assertionFailed
  | noBacksolution
deriving DecidableEq

/-- Python-dict semantics for the tables keyed by operation label: the last
entry with a given label wins. -/
def findLast? (ops : List OpEntry) (lbl : String) : Option OpEntry :=
  ops.reverse.find? (fun o => o.label == lbl)

/-- `canonical_coordinate_table[lbl]`: the canonical coordinate of the last
catalog entry labelled `lbl` (a missing label is a Python `KeyError`;
modelled as the zero coordinate, unexercised by the claims). -/
noncomputable def coordOf (a2c : Alcove → Alcove) (ops : List OpEntry) (lbl : String) : Alcove :=
  match findLast? ops lbl with
  | some o => a2c o.alcove
  | none => (0, 0, 0)

/-- `canonical_gate_table[lbl]` (missing label modelled as the empty
fragment, unexercised by the claims). -/
def gateOf (ops : List OpEntry) (lbl : String) : Circuit :=
  match findLast? ops lbl with
  | some o => o.circuit
  | none => []

/-- Modelled from the spec: the tolerance `epsilon` (from
`monodromy/utilities.py`, outside the embedded file).  The spec fixes no
value ("components 2 and 3 are ≈0"); the claims do not depend on the exact
value, only on it being a small positive number. -/
noncomputable def epsilon : ℝ := 1 / 1000000

/-- The XX-interaction-type predicate of the `assert`: components 1 and 2
(0-indexed) of a canonical coordinate are below `epsilon` in magnitude. -/
noncomputable def xxPred (c : Alcove) : Prop :=
  |c.2.1| < epsilon ∧ |c.2.2| < epsilon

/-- The `assert` condition: every value of `canonical_coordinate_table`
(i.e. the effective, last-wins table value of every entry's label) is of
XX-interaction type. -/
noncomputable def allXX (a2c : Alcove → Alcove) (ops : List OpEntry) : Prop :=
  ∀ o ∈ ops, xxPred (coordOf a2c ops o.label)

noncomputable instance allXXDecidable (a2c : Alcove → Alcove) (ops : List OpEntry) :
    Decidable (allXX a2c ops) := by
  unfold allXX xxPred
  infer_instance

/-- The special-cased first hop (lines 292–309): if the first hop's target
alcove coordinate has first component `≤ 1/4`, the native fragment is the
whole circuit so far; otherwise it is wrapped in `reflect XX, YY` and
`X shift`, and the phase picks up the two table phases. -/
noncomputable def initState (_a2c : Alcove → Alcove) (ops : List OpEntry) (h0 : Hop) :
    Circuit × ℂ :=
  if h0.tgt.1 ≤ 1 / 4 then
    (gateOf ops h0.op, 1)
  else
    (reflCircuit .reflectXXYY ++ gateOf ops h0.op ++ invCircuit (reflCircuit .reflectXXYY)
       ++ shiftCircuit .xShift,
     1 * (shiftPhase .xShift * reflPhase .reflectXXYY))

/-- The three composition stages of lines 372–403, for one later hop: the
previously-built circuit conjugated by the source reflection, followed by the
source shift, the whole conjugated by the source axis permutation; then the
local Z rolls and the native fragment around it; then conjugation by the
inverse target axis permutation. -/
noncomputable def buildHop (sol : Sol) (qc : Circuit) (nativeGate : Circuit) : Circuit :=
  let p_s := canonical_rotation_circuit sol.sourceFirst sol.sourceSecond
  let p_t := canonical_rotation_circuit sol.targetFirst sol.targetSecond
  let srcRefl := reflCircuit sol.reflName
  let srcShift := shiftCircuit sol.shiftName
  let stage1 := p_s ++ srcRefl ++ qc ++ invCircuit srcRefl ++ srcShift ++ invCircuit p_s
  let stage2 :=
    [(⟨.rz, 2 * sol.x, 0⟩ : Gate), ⟨.rz, 2 * sol.y, 1⟩] ++ nativeGate
      ++ [(⟨.rz, 2 * sol.u, 0⟩ : Gate), ⟨.rz, 2 * sol.v, 1⟩] ++ stage1
      ++ [(⟨.rz, 2 * sol.r, 0⟩ : Gate), ⟨.rz, 2 * sol.s, 1⟩]
  invCircuit p_t ++ stage2 ++ p_t

/-- One iteration of the main loop over `decomposition[1:]`: search, then
either signal `NoBacksolution` or extend the running circuit and phase. -/
noncomputable def hopStep (a2c : Alcove → Alcove) (ops : List OpEntry) (st : Circuit × ℂ)
    (hop : Hop) : Except SynthError (Circuit × ℂ) :=
  match searchHop (a2c hop.src) (a2c hop.tgt) (coordOf a2c ops hop.op).1 with
  | none => Except.error .noBacksolution
  | some sol =>
    Except.ok (buildHop sol st.1 (gateOf ops hop.op),
               st.2 * (reflPhase sol.reflName * shiftPhase sol.shiftName))

/-- The main loop over `decomposition[1:]`, threading the running state. -/
noncomputable def processHops (a2c : Alcove → Alcove) (ops : List OpEntry) :
    List Hop → Circuit × ℂ → Except SynthError (Circuit × ℂ)
  | [], st => Except.ok st
  | hop :: rest, st =>
    match hopStep a2c ops st hop with
    | Except.error e => Except.error e
    | Except.ok st' => processHops a2c ops rest st'

/-- `xx_circuit_from_decomposition(decomposition, operations)`: the whole
synthesis entry point.  The result carries the final gate list and the
additive global phase angle `-Im log` of the accumulated multiplicative
phase. -/
noncomputable def xx_circuit_from_decomposition (a2c : Alcove → Alcove) (path : List Hop)
    (ops : List OpEntry) : Except SynthError (Circuit × ℝ) :=
  if allXX a2c ops then
    match path with
    | [] => Except.ok ([], 0)
    | h0 :: hops =>
      match processHops a2c ops hops (initState a2c ops h0) with
      | Except.error e => Except.error e
      | Except.ok (qc, phi) => Except.ok (qc, -(Complex.log phi).im)
  else
    Except.error .assertionFailed

/-! ## Spec-side definitions (for refinement comparisons) -/

/-- The nesting formula claimed by the spec (§4.5) for one later hop, read in
time order as written: the inverses of the source axis rotation, source
shift and source reflection; the `Rz(2x), Rz(2y)` pair; the native fragment;
the `Rz(2u), Rz(2v)` pair; the previous circuit; the `Rz(2r), Rz(2s)` pair;
the source reflection, shift and axis rotation; the whole conjugated by the
target axis rotation. -/
noncomputable def claimedHopNesting (p_s p_t srcRefl srcShift nativeGate qc : Circuit)
    (r s u v x y : ℝ) : Circuit :=
  invCircuit p_t ++
    (invCircuit p_s ++ invCircuit srcShift ++ invCircuit srcRefl
      ++ [(⟨.rz, 2 * x, 0⟩ : Gate), ⟨.rz, 2 * y, 1⟩] ++ nativeGate
      ++ [(⟨.rz, 2 * u, 0⟩ : Gate), ⟨.rz, 2 * v, 1⟩] ++ qc
      ++ [(⟨.rz, 2 * r, 0⟩ : Gate), ⟨.rz, 2 * s, 1⟩]
      ++ srcRefl ++ srcShift ++ p_s) ++ p_t

/-- The nesting the code actually realizes for one later hop, written as one
flat formula: the source reflection and the source axis permutation each
appear in a matched operation/inverse pair around the previously-built
circuit, the source shift appears exactly once (between the undone
reflection and the undone permutation), and the Z-roll/native block sits
outside that conjugated block, the whole conjugated by the target axis
permutation. -/
noncomputable def amendedHopNesting (p_s p_t srcRefl srcShift nativeGate qc : Circuit)
    (r s u v x y : ℝ) : Circuit :=
  invCircuit p_t
    ++ [(⟨.rz, 2 * x, 0⟩ : Gate), ⟨.rz, 2 * y, 1⟩] ++ nativeGate
    ++ [(⟨.rz, 2 * u, 0⟩ : Gate), ⟨.rz, 2 * v, 1⟩]
    ++ (p_s ++ srcRefl ++ qc ++ invCircuit srcRefl ++ srcShift ++ invCircuit p_s)
    ++ [(⟨.rz, 2 * r, 0⟩ : Gate), ⟨.rz, 2 * s, 1⟩] ++ p_t

/-- The phase multiplier contributed by one later hop's chosen symmetry
(1 when the search failed; under a success hypothesis that case is never
taken). -/
noncomputable def solPhase : Option Sol → ℂ
  | some sol => reflPhase sol.reflName * shiftPhase sol.shiftName
  | none => 1

/-- The spec's description of the accumulated multiplicative phase: the
first-hop factor (the two fixed table phases when the `> 1/4` wrapper fires)
times, for each later hop, the chosen reflection and shift phases. -/
noncomputable def specPhaseProduct (a2c : Alcove → Alcove) (ops : List OpEntry)
    (path : List Hop) : ℂ :=
  match path with
  | [] => 1
  | h0 :: hops =>
    (if h0.tgt.1 ≤ 1 / 4 then 1 else reflPhase .reflectXXYY * shiftPhase .xShift) *
      (hops.map (fun h =>
        solPhase (searchHop (a2c h.src) (a2c h.tgt) (coordOf a2c ops h.op).1))).prod

/-- The flattened search order: the Cartesian product of the reflection and
shift tables, reflections outermost, in table order. -/
def comboOrder : List (ReflName × ShiftName) :=
  reflNames.flatMap (fun rn => shiftNames.map (fun sn => (rn, sn)))

/-! ## Concrete inputs for witnesses and counterexamples -/

/-- The identity alcove-to-canonical transform, used to instantiate the
abstract transform parameter on concrete inputs. -/
def a2cId : Alcove → Alcove := id

/-- A one-entry catalog whose operation sits at the origin (XX-type for any
transform fixing the origin). -/
noncomputable def catalogA : List OpEntry := [⟨"op", (0, 0, 0), []⟩]

/-- A first hop landing at the origin: takes the `≤ 1/4` branch. -/
noncomputable def hopA0 : Hop := ⟨(0, 0, 0), "op", (0, 0, 0)⟩

/-- A later hop whose source and target already agree on axis 0 and whose
backsolve hits the stabilised-arccos branches: the very first combination
(no reflection, no shift, axis pair (0,0)) succeeds. -/
noncomputable def hopA1 : Hop := ⟨(1, 0, 0), "op", (1, 1 / 100, 0)⟩

/-- A later hop that no combination can realize: the target coordinate
`(1, 1, 1)` is never within `1e-2` of a multiple of `π` away from the
shifted sources, which all have components in `{0, π/2}`. -/
noncomputable def hopA2 : Hop := ⟨(0, 0, 0), "op", (1, 1, 1)⟩

/-- The six backsolved angles of the successful combination of `hopA1`. -/
noncomputable def cexAngles : ℝ × ℝ × ℝ × ℝ × ℝ × ℝ :=
  (decompose_xxyy_into_xxyy_xx (1 / 100) 0 0 0 0).getD (0, 0, 0, 0, 0, 0)

/-- The solution found by the search on `hopA1`. -/
noncomputable def cexSol : Sol :=
  ⟨.noReflection, .noShift, 1, 2, 1, 2, cexAngles.1, cexAngles.2.1, cexAngles.2.2.1,
   cexAngles.2.2.2.1, cexAngles.2.2.2.2.1, cexAngles.2.2.2.2.2⟩

/-- A one-entry catalog whose operation has alcove coordinate `(0.3, 0, 0)` —
its own coordinate parameter is `0.3 > 1/4` — and a nonempty fragment. -/
noncomputable def catalogB : List OpEntry := [⟨"op", (3 / 10, 0, 0), [⟨.rx, 1, 0⟩]⟩]

/-- A first hop using the `0.3` interaction but recording target `(0.2, 0, 0)`:
the code's branch looks at the target coordinate, not the interaction's own
parameter. -/
noncomputable def hopB5 : Hop := ⟨(0, 0, 0), "op", (1 / 5, 0, 0)⟩

/-- A first hop using the `0.3` interaction with matching target `(0.3, 0, 0)`. -/
noncomputable def hopB3 : Hop := ⟨(0, 0, 0), "op", (3 / 10, 0, 0)⟩

/-! ## Helper lemmas about `fmod` and `nearp` -/

theorem fmod_nonneg (a : ℝ) {m : ℝ} (hm : 0 < m) : 0 ≤ fmod a m := by
  unfold fmod
  have h := Int.floor_le (a / m)
  have h2 : m * (⌊a / m⌋ : ℝ) ≤ m * (a / m) := mul_le_mul_of_nonneg_left h hm.le
  have h3 : m * (a / m) = a := by field_simp
  linarith

theorem fmod_lt (a : ℝ) {m : ℝ} (hm : 0 < m) : fmod a m < m := by
  unfold fmod
  have h := Int.lt_floor_add_one (a / m)
  have h2 : m * (a / m) < m * ((⌊a / m⌋ : ℝ) + 1) := mul_lt_mul_of_pos_left h hm
  have h3 : m * (a / m) = a := by field_simp
  nlinarith

theorem fmod_eq_self {c m : ℝ} (h0 : 0 ≤ c) (hm : 0 < m) (hcm : c < m) : fmod c m = c := by
  unfold fmod
  rw [show ⌊c / m⌋ = 0 from Int.floor_eq_zero_iff.mpr
    ⟨div_nonneg h0 hm.le, (div_lt_one hm).mpr hcm⟩]
  simp

theorem nearp_self (z m e : ℝ) (he : 0 < e) : nearp z z m e := by
  unfold nearp fmod
  left
  simpa [sub_self] using he

theorem not_nearp_zero_one : ¬ nearp 0 1 Real.pi (1 / 100) := by
  have hpi := Real.pi_gt_three
  unfold nearp
  rw [show |(0 : ℝ) - 1| = 1 by norm_num,
      fmod_eq_self (by norm_num) (by linarith) (by linarith)]
  rintro (h | h)
  · rw [abs_one] at h
    norm_num at h
  · rw [abs_of_neg (by linarith : (1 : ℝ) - Real.pi < 0)] at h
    linarith

theorem not_nearp_halfpi_one : ¬ nearp (Real.pi / 2) 1 Real.pi (1 / 100) := by
  have hpi3 := Real.pi_gt_three
  have hpi4 := Real.pi_lt_d2
  have ht : |Real.pi / 2 - 1| = Real.pi / 2 - 1 := abs_of_pos (by norm_num at hpi3 ⊢; linarith)
  unfold nearp
  rw [ht, fmod_eq_self (by linarith) (by linarith) (by linarith)]
  rintro (h | h)
  · rw [abs_of_pos (by linarith)] at h
    linarith
  · rw [abs_of_neg (by linarith : Real.pi / 2 - 1 - Real.pi < 0)] at h
    linarith

/-- The wraparound characterisation of `nearp`: for a positive modulus it
holds exactly when the difference is within tolerance of an integer multiple
of the modulus. -/
theorem nearp_iff (x y m e : ℝ) (hm : 0 < m) :
    nearp x y m e ↔ ∃ k : ℤ, |x - y - k * m| < e := by
  have h0 : 0 ≤ fmod |x - y| m := fmod_nonneg _ hm
  have h1 : fmod |x - y| m < m := fmod_lt _ hm
  have habs : |fmod |x - y| m| = fmod |x - y| m := abs_of_nonneg h0
  have hval : fmod |x - y| m = |x - y| - m * ⌊|x - y| / m⌋ := rfl
  have hsign : ∀ k : ℤ, |(|x - y| - (k : ℝ) * m)| < e → ∃ k' : ℤ, |x - y - (k' : ℝ) * m| < e := by
    intro k hk
    rcases le_or_lt 0 (x - y) with hxy | hxy
    · exact ⟨k, by rw [abs_of_nonneg hxy] at hk; exact hk⟩
    · refine ⟨-k, ?_⟩
      have heq : |x - y - ((-k : ℤ) : ℝ) * m| = |(|x - y| - (k : ℝ) * m)| := by
        rw [abs_of_neg hxy]
        push_cast
        rw [show x - y - -(k : ℝ) * m = -(-(x - y) - (k : ℝ) * m) by ring, abs_neg]
      rw [heq]
      exact hk
  unfold nearp
  constructor
  · rintro (h | h)
    · apply hsign ⌊|x - y| / m⌋
      rw [show |x - y| - (⌊|x - y| / m⌋ : ℝ) * m = fmod |x - y| m by rw [hval]; ring]
      exact h
    · apply hsign (⌊|x - y| / m⌋ + 1)
      rw [show |x - y| - ((⌊|x - y| / m⌋ + 1 : ℤ) : ℝ) * m = fmod |x - y| m - m by
        rw [hval]; push_cast; ring]
      exact h
  · rintro ⟨k, hk⟩
    have hk' : ∃ k' : ℤ, |(|x - y| - (k' : ℝ) * m)| < e := by
      rcases le_or_lt 0 (x - y) with hxy | hxy
      · exact ⟨k, by rwa [abs_of_nonneg hxy]⟩
      · refine ⟨-k, ?_⟩
        rw [abs_of_neg hxy]
        push_cast
        rw [show -(x - y) - -(k : ℝ) * m = -(x - y - (k : ℝ) * m) by ring, abs_neg]
        exact hk
    obtain ⟨k', hk'⟩ := hk'
    have key : |x - y| - (k' : ℝ) * m = fmod |x - y| m + ((⌊|x - y| / m⌋ - k' : ℤ) : ℝ) * m := by
      rw [hval]
      push_cast
      ring
    rw [key] at hk'
    set i : ℤ := ⌊|x - y| / m⌋ - k' with hi
    rcases lt_trichotomy i 0 with hneg | h0i | hpos
    · rcases lt_trichotomy i (-1) with hneg2 | hm1 | habsurd
      · have hile : (i : ℝ) ≤ -2 := by exact_mod_cast (by omega : i ≤ -2)
        have hge : m ≤ -(fmod |x - y| m + (i : ℝ) * m) := by nlinarith
        have hme : m < e :=
          lt_of_le_of_lt (hge.trans (neg_le_abs _)) hk'
        left
        rw [habs]
        linarith
      · right
        rw [hm1] at hk'
        push_cast at hk'
        rw [show fmod |x - y| m + -1 * m = fmod |x - y| m - m by ring] at hk'
        exact hk'
      · omega
    · left
      rw [h0i] at hk'
      push_cast at hk'
      rw [habs]
      calc fmod |x - y| m ≤ |fmod |x - y| m + 0 * m| := by
            rw [zero_mul, add_zero]
            exact le_abs_self _
        _ < e := hk'
    · have hile : (1 : ℝ) ≤ (i : ℝ) := by exact_mod_cast hpos
      have hge : m ≤ fmod |x - y| m + (i : ℝ) * m := by nlinarith
      have hme : m < e := lt_of_le_of_lt (hge.trans (le_abs_self _)) hk'
      left
      rw [habs]
      linarith

/-- Claim C6 (counterexample): the spec's concrete instance
`near(0.01, π/2 − 0.01, modulus = π/2, tolerance = 1e-2)` is false on the
code: the two points are `0.02` apart across the modulus boundary, which is
not below the `0.01` tolerance. -/
theorem claim_C6_counterexample :
    ¬ nearp (1 / 100) (Real.pi / 2 - 1 / 100) (Real.pi / 2) (1 / 100) := by
  have hpi3 := Real.pi_gt_three
  have hpi4 := Real.pi_lt_d2
  norm_num at hpi3 hpi4
  have ht : |(1 / 100 : ℝ) - (Real.pi / 2 - 1 / 100)| = Real.pi / 2 - 1 / 50 := by
    rw [show (1 / 100 : ℝ) - (Real.pi / 2 - 1 / 100) = -(Real.pi / 2 - 1 / 50) by ring, abs_neg,
        abs_of_pos (by linarith)]
  unfold nearp
  rw [ht, fmod_eq_self (by linarith) (by linarith) (by linarith)]
  rintro (h | h)
  · rw [abs_of_pos (by linarith)] at h
    linarith
  · rw [show Real.pi / 2 - 1 / 50 - Real.pi / 2 = -(1 / 50 : ℝ) by ring, abs_neg,
        abs_of_pos (by norm_num)] at h
    norm_num at h

/-- Claim C6 (amended): `nearp` is true exactly when the difference of the
two points is within tolerance of an integer multiple of the (positive)
modulus; the spec's first concrete instance holds only once the tolerance
exceeds the actual wrap distance `0.02` (e.g. at `3e-2`), and
`near(0, π/4, π/2, 1e-2)` is false as the spec states. -/
theorem claim_C6_amended :
    (∀ x y m e : ℝ, 0 < m → (nearp x y m e ↔ ∃ k : ℤ, |x - y - k * m| < e)) ∧
    nearp (1 / 100) (Real.pi / 2 - 1 / 100) (Real.pi / 2) (3 / 100) ∧
    ¬ nearp 0 (Real.pi / 4) (Real.pi / 2) (1 / 100) := by
  refine ⟨fun x y m e hm => nearp_iff x y m e hm, ?_, ?_⟩
  · have hpi3 := Real.pi_gt_three
    have hpi4 := Real.pi_lt_d2
    norm_num at hpi3 hpi4
    have ht : |(1 / 100 : ℝ) - (Real.pi / 2 - 1 / 100)| = Real.pi / 2 - 1 / 50 := by
      rw [show (1 / 100 : ℝ) - (Real.pi / 2 - 1 / 100) = -(Real.pi / 2 - 1 / 50) by ring, abs_neg,
          abs_of_pos (by linarith)]
    unfold nearp
    rw [ht, fmod_eq_self (by linarith) (by linarith) (by linarith)]
    right
    rw [show Real.pi / 2 - 1 / 50 - Real.pi / 2 = -(1 / 50 : ℝ) by ring, abs_neg,
        abs_of_pos (by norm_num)]
    norm_num
  · have hpi3 := Real.pi_gt_three
    have hpi4 := Real.pi_lt_d2
    norm_num at hpi3 hpi4
    have ht : |(0 : ℝ) - Real.pi / 4| = Real.pi / 4 := by
      rw [show (0 : ℝ) - Real.pi / 4 = -(Real.pi / 4) by ring, abs_neg,
          abs_of_pos (by linarith)]
    unfold nearp
    rw [ht, fmod_eq_self (by linarith) (by linarith) (by linarith)]
    rintro (h | h)
    · rw [abs_of_pos (by linarith)] at h
      linarith
    · rw [show Real.pi / 4 - Real.pi / 2 = -(Real.pi / 4) by ring, abs_neg,
          abs_of_pos (by linarith)] at h
      linarith

/-- Claim C6 (witness): the characterisation applied at a concrete input. -/
theorem claim_C6_witness : nearp 0 0 1 1 :=
  (claim_C6_amended.1 0 0 1 1 (by norm_num)).mpr ⟨0, by norm_num⟩

/-! ## Claim C10: totality of `canonical_rotation_circuit` -/

/-- Claim C10: for any index pair outside the six handled ordered pairs the
function falls through every branch and silently returns the empty circuit,
exactly as in the handled identity case `(0, 1)`. -/
theorem claim_C10_theorem (i j : ℤ)
    (h : (i, j) ∉ ([(0, 1), (0, 2), (1, 0), (1, 2), (2, 0), (2, 1)] : List (ℤ × ℤ))) :
    canonical_rotation_circuit i j = [] ∧
    canonical_rotation_circuit i j = canonical_rotation_circuit 0 1 := by
  simp only [List.mem_cons, List.not_mem_nil, or_false, not_or] at h
  obtain ⟨h1, h2, h3, h4, h5, h6⟩ := h
  have e1 : ¬(((0 : ℤ), (1 : ℤ)) = (i, j)) := fun heq => h1 heq.symm
  have e2 : ¬(((0 : ℤ), (2 : ℤ)) = (i, j)) := fun heq => h2 heq.symm
  have e3 : ¬(((1 : ℤ), (0 : ℤ)) = (i, j)) := fun heq => h3 heq.symm
  have e4 : ¬(((1 : ℤ), (2 : ℤ)) = (i, j)) := fun heq => h4 heq.symm
  have e5 : ¬(((2 : ℤ), (0 : ℤ)) = (i, j)) := fun heq => h5 heq.symm
  have e6 : ¬(((2 : ℤ), (1 : ℤ)) = (i, j)) := fun heq => h6 heq.symm
  unfold canonical_rotation_circuit
  rw [if_neg e1, if_neg e2, if_neg e3, if_neg e4, if_neg e5, if_neg e6]
  exact ⟨rfl, by rw [if_pos rfl]⟩

/-- Claim C10 (witness): equal indices `(1, 1)` silently yield the empty
circuit. -/
theorem claim_C10_witness :
    canonical_rotation_circuit 1 1 = [] ∧
    canonical_rotation_circuit 1 1 = canonical_rotation_circuit 0 1 :=
  claim_C10_theorem 1 1 (by decide)

/-! ## Claim C5: `safe_arccos` -/

/-- Claim C5 (counterexample): at `(0.999, 1)` — where `|n| = |d| − 1e-3` —
`safe_arccos` does not return exactly `0` or exactly `π`; it returns the
plain arccosine of the ratio, which lies strictly between them. -/
theorem claim_C5_counterexample :
    safe_arccos (999 / 1000) 1 = some (Real.arccos (999 / 1000)) ∧
    Real.arccos (999 / 1000) ≠ 0 ∧ Real.arccos (999 / 1000) ≠ Real.pi := by
  have ha : |(999 / 1000 : ℝ)| = 999 / 1000 := abs_of_nonneg (by norm_num)
  refine ⟨?_, ?_, ?_⟩
  · unfold safe_arccos
    have h1 : ¬(|(999 / 1000 : ℝ)| > |(1 : ℝ)| ∧ |(999 / 1000 : ℝ) - 1| < 5 / 1000) := by
      rintro ⟨h, -⟩
      rw [abs_one, ha] at h
      norm_num at h
    have h2 : ¬(|(999 / 1000 : ℝ)| > |(1 : ℝ)| ∧ |(999 / 1000 : ℝ) + 1| < 5 / 1000) := by
      rintro ⟨h, -⟩
      rw [abs_one, ha] at h
      norm_num at h
    have h3 : ¬((1 : ℝ) = 0 ∨ 1 < |(999 / 1000 : ℝ)| / |(1 : ℝ)|) := by
      rw [abs_one, ha]
      norm_num
    rw [if_neg h1, if_neg h2, if_neg h3]
    norm_num
  · rw [Ne, Real.arccos_eq_zero]
    norm_num
  · rw [Ne, Real.arccos_eq_pi]
    norm_num

/-- Claim C5 (amended): on the over-range side `|n| = |d| + 1e-3` (with `d`
nonzero) the result is exactly `0` or exactly `π`; the sign of `n·d` decides
which of them, provided `|n| + |d|` is not itself below the `0.005`
threshold; on the in-range side `|n| = |d| − 1e-3` the result is the plain
(finite) arccosine of the ratio; and away from the degenerate region
`safe_arccos(0.5, 1) = arccos(0.5)` exactly. -/
theorem claim_C5_amended :
    (∀ n d : ℝ, d ≠ 0 → |n| = |d| + 1 / 1000 →
      safe_arccos n d = some 0 ∨ safe_arccos n d = some Real.pi) ∧
    (∀ n d : ℝ, d ≠ 0 → |n| = |d| + 1 / 1000 → 5 / 1000 ≤ |n| + |d| →
      (0 < n * d → safe_arccos n d = some 0) ∧
      (n * d < 0 → safe_arccos n d = some Real.pi)) ∧
    (∀ n d : ℝ, d ≠ 0 → |n| = |d| - 1 / 1000 →
      safe_arccos n d = some (Real.arccos (n / d))) ∧
    safe_arccos (1 / 2) 1 = some (Real.arccos (1 / 2)) := by
  have habs_gt : ∀ n d : ℝ, |n| = |d| + 1 / 1000 → |d| < |n| := by
    intro n d h
    rw [h]
    linarith
  have hsub_same : ∀ n d : ℝ, 0 < n * d → |n| = |d| + 1 / 1000 → |n - d| = 1 / 1000 := by
    intro n d hnd h
    rcases mul_pos_iff.mp hnd with ⟨hn, hd⟩ | ⟨hn, hd⟩
    · rw [abs_of_pos hn, abs_of_pos hd] at h
      rw [abs_of_pos (by linarith)]
      linarith
    · rw [abs_of_neg hn, abs_of_neg hd] at h
      rw [show n - d = -(d - n) by ring, abs_neg, abs_of_pos (by linarith)]
      linarith
  have hadd_opp : ∀ n d : ℝ, n * d < 0 → |n| = |d| + 1 / 1000 → |n + d| = 1 / 1000 := by
    intro n d hnd h
    rcases mul_neg_iff.mp hnd with ⟨hn, hd⟩ | ⟨hn, hd⟩
    · rw [abs_of_pos hn, abs_of_neg hd] at h
      rw [abs_of_pos (by linarith)]
      linarith
    · rw [abs_of_neg hn, abs_of_pos hd] at h
      rw [show n + d = -(-n - d) by ring, abs_neg, abs_of_pos (by linarith)]
      linarith
  have hsub_opp : ∀ n d : ℝ, n * d < 0 → |n - d| = |n| + |d| := by
    intro n d hnd
    rcases mul_neg_iff.mp hnd with ⟨hn, hd⟩ | ⟨hn, hd⟩
    · rw [abs_of_pos hn, abs_of_neg hd, abs_of_pos (by linarith)]
      ring
    · rw [abs_of_neg hn, abs_of_pos hd, show n - d = -(-n + d) by ring, abs_neg,
          abs_of_pos (by linarith)]
  have hmain0 : ∀ n d : ℝ, 0 < n * d → |n| = |d| + 1 / 1000 → safe_arccos n d = some 0 := by
    intro n d hnd h
    unfold safe_arccos
    rw [if_pos ⟨habs_gt n d h, by rw [hsub_same n d hnd h]; norm_num⟩]
  have hmainpi : ∀ n d : ℝ, n * d < 0 → |n| = |d| + 1 / 1000 → 5 / 1000 ≤ |n| + |d| →
      safe_arccos n d = some Real.pi := by
    intro n d hnd h h5
    unfold safe_arccos
    rw [if_neg, if_pos ⟨habs_gt n d h, by rw [hadd_opp n d hnd h]; norm_num⟩]
    rintro ⟨-, hlt⟩
    rw [hsub_opp n d hnd] at hlt
    linarith
  refine ⟨?_, ?_, ?_, ?_⟩
  · intro n d hd h
    rcases lt_trichotomy (n * d) 0 with hnd | hnd | hnd
    · by_cases hb : |n - d| < 5 / 1000
      · left
        unfold safe_arccos
        rw [if_pos ⟨habs_gt n d h, hb⟩]
      · right
        unfold safe_arccos
        rw [if_neg (fun hc => hb hc.2),
            if_pos ⟨habs_gt n d h, by rw [hadd_opp n d hnd h]; norm_num⟩]
    · exfalso
      rcases mul_eq_zero.mp hnd with hn | hd'
      · rw [hn, abs_zero] at h
        linarith [abs_nonneg d]
      · exact hd hd'
    · exact Or.inl (hmain0 n d hnd h)
  · intro n d hd h h5
    exact ⟨fun hnd => hmain0 n d hnd h, fun hnd => hmainpi n d hnd h h5⟩
  · intro n d hd h
    have hdpos : 0 < |d| := abs_pos.mpr hd
    have hlt : |n| < |d| := by
      rw [h]
      linarith
    unfold safe_arccos
    rw [if_neg (fun hc => absurd hc.1 (not_lt.mpr hlt.le)),
        if_neg (fun hc => absurd hc.1 (not_lt.mpr hlt.le)), if_neg]
    rintro (hc | hc)
    · exact hd hc
    · rw [lt_div_iff₀ hdpos, one_mul] at hc
      linarith
  · have hhalf : |(1 / 2 : ℝ)| = 1 / 2 := abs_of_nonneg (by norm_num)
    unfold safe_arccos
    have h1 : ¬(|(1 / 2 : ℝ)| > |(1 : ℝ)| ∧ |(1 / 2 : ℝ) - 1| < 5 / 1000) := by
      rintro ⟨h, -⟩
      rw [abs_one, hhalf] at h
      norm_num at h
    have h2 : ¬(|(1 / 2 : ℝ)| > |(1 : ℝ)| ∧ |(1 / 2 : ℝ) + 1| < 5 / 1000) := by
      rintro ⟨h, -⟩
      rw [abs_one, hhalf] at h
      norm_num at h
    have h3 : ¬((1 : ℝ) = 0 ∨ 1 < |(1 / 2 : ℝ)| / |(1 : ℝ)|) := by
      rw [abs_one, hhalf]
      norm_num
    rw [if_neg h1, if_neg h2, if_neg h3]
    norm_num

/-- Claim C5 (witness): the amended statement applied at concrete inputs on
either side of the degenerate boundary. -/
theorem claim_C5_witness :
    safe_arccos (1001 / 1000) 1 = some 0 ∧
    safe_arccos (999 / 1000) 1 = some (Real.arccos (999 / 1000 / 1)) := by
  have h1 : |(1001 / 1000 : ℝ)| = |(1 : ℝ)| + 1 / 1000 := by
    rw [abs_one, abs_of_nonneg (by norm_num : (0 : ℝ) ≤ 1001 / 1000)]
    norm_num
  have h2 : |(999 / 1000 : ℝ)| = |(1 : ℝ)| - 1 / 1000 := by
    rw [abs_one, abs_of_nonneg (by norm_num : (0 : ℝ) ≤ 999 / 1000)]
    norm_num
  have h3 : (5 / 1000 : ℝ) ≤ |(1001 / 1000 : ℝ)| + |(1 : ℝ)| := by
    rw [abs_one, abs_of_nonneg (by norm_num : (0 : ℝ) ≤ 1001 / 1000)]
    norm_num
  constructor
  · exact (claim_C5_amended.2.1 (1001 / 1000) 1 (by norm_num) h1 h3).1 (by norm_num)
  · exact claim_C5_amended.2.2.1 (999 / 1000) 1 (by norm_num) h2

/-! ## Claims C7 and C9: the XX-type assertion and the empty path -/

/-- Claim C7 (counterexample): the claim quantifies over *every* catalog, but
a catalog with a non-XX-type entry makes the empty-path synthesis hit the
assertion instead of returning the empty circuit. -/
theorem claim_C7_counterexample :
    xx_circuit_from_decomposition a2cId [] [⟨"bad", (0, 1, 0), []⟩] =
      Except.error SynthError.assertionFailed := by
  unfold xx_circuit_from_decomposition
  rw [if_neg]
  intro hall
  have h := hall ⟨"bad", (0, 1, 0), []⟩ (by simp)
  have hc : coordOf a2cId [⟨"bad", (0, 1, 0), []⟩] (OpEntry.mk "bad" (0, 1, 0) []).label
      = ((0 : ℝ), (1 : ℝ), (0 : ℝ)) := rfl
  rw [hc] at h
  have h1 := h.1
  norm_num [epsilon] at h1

/-- Claim C7 (amended): for every transform and every catalog that passes the
XX-type assertion, synthesizing the empty path returns the empty circuit with
global phase angle `0`. -/
theorem claim_C7_amended (a2c : Alcove → Alcove) (ops : List OpEntry) (h : allXX a2c ops) :
    xx_circuit_from_decomposition a2c [] ops = Except.ok ([], 0) := by
  unfold xx_circuit_from_decomposition
  rw [if_pos h]

/-- Claim C7 (witness): the empty catalog passes the assertion vacuously. -/
theorem claim_C7_witness : xx_circuit_from_decomposition a2cId [] [] = Except.ok ([], 0) :=
  claim_C7_amended a2cId [] (by intro o ho; exact absurd ho (List.not_mem_nil o))

/-- Claim C9 (counterexample): the coordinate table is keyed by operation
label with later entries overwriting earlier ones, so a catalog *containing*
a non-XX-type entry does not necessarily trip the assertion: here the first
entry is non-XX-type, but a later entry with the same label shadows it and
the empty-path call returns normally. -/
theorem claim_C9_counterexample :
    ¬ xxPred (a2cId (0, 1, 0)) ∧
    xx_circuit_from_decomposition a2cId []
        [⟨"A", (0, 1, 0), []⟩, ⟨"A", (0, 0, 0), []⟩] = Except.ok ([], 0) := by
  constructor
  · intro h
    have h1 := h.1
    norm_num [a2cId, epsilon] at h1
  · unfold xx_circuit_from_decomposition
    rw [if_pos]
    intro o ho
    have hlbl : o.label = "A" := by
      rcases (by simpa using ho :
          o = (⟨"A", (0, 1, 0), []⟩ : OpEntry) ∨ o = (⟨"A", (0, 0, 0), []⟩ : OpEntry)) with
        rfl | rfl <;> rfl
    rw [hlbl]
    have hc : coordOf a2cId [⟨"A", (0, 1, 0), []⟩, ⟨"A", (0, 0, 0), []⟩] "A"
        = ((0 : ℝ), (0 : ℝ), (0 : ℝ)) := rfl
    rw [hc]
    constructor <;> norm_num [epsilon]

/-- Claim C9 (amended): if the effective (last-wins) table value of some
catalog entry's label fails the XX-type check, the synthesis call fails with
the assertion for *every* decomposition path — in particular before the
empty-path check and before any hop is processed, even if the path never
uses that entry. -/
theorem claim_C9_amended (a2c : Alcove → Alcove) (ops : List OpEntry) (path : List Hop)
    (o : OpEntry) (ho : o ∈ ops) (hbad : ¬ xxPred (coordOf a2c ops o.label)) :
    xx_circuit_from_decomposition a2c path ops = Except.error SynthError.assertionFailed := by
  unfold xx_circuit_from_decomposition
  rw [if_neg]
  intro hall
  exact hbad (hall o ho)

/-- Claim C9 (witness): a distinct-label non-XX-type entry with a nonempty
path that never uses it. -/
theorem claim_C9_witness :
    xx_circuit_from_decomposition a2cId [⟨(0, 0, 0), "other", (0, 0, 0)⟩]
        [⟨"bad9", (0, 1, 0), []⟩] = Except.error SynthError.assertionFailed := by
  refine claim_C9_amended a2cId [⟨"bad9", (0, 1, 0), []⟩] [⟨(0, 0, 0), "other", (0, 0, 0)⟩]
    ⟨"bad9", (0, 1, 0), []⟩ (by simp) ?_
  intro h
  have h1 : |(coordOf a2cId [⟨"bad9", (0, 1, 0), []⟩] (OpEntry.mk "bad9" (0, 1, 0) []).label).2.1|
      < epsilon := h.1
  have hc : coordOf a2cId [⟨"bad9", (0, 1, 0), []⟩] (OpEntry.mk "bad9" (0, 1, 0) []).label
      = ((0 : ℝ), (1 : ℝ), (0 : ℝ)) := rfl
  rw [hc] at h1
  norm_num [epsilon] at h1

/-! ## Exhaustion of the symmetry search (claim C3) -/

theorem shiftScalars_cases (sn : ShiftName) :
    ((shiftScalars sn).1 = 0 ∨ (shiftScalars sn).1 = 1) ∧
    ((shiftScalars sn).2.1 = 0 ∨ (shiftScalars sn).2.1 = 1) ∧
    ((shiftScalars sn).2.2 = 0 ∨ (shiftScalars sn).2.2 = 1) := by
  cases sn <;> simp [shiftScalars]

theorem comboResult_A2_none (rn : ReflName) (sn : ShiftName) :
    comboResult (0, 0, 0) (1, 1, 1) 0 rn sn = none := by
  obtain ⟨hs1, hs2, hs3⟩ := shiftScalars_cases sn
  have hval : ∀ i : ℤ, i = 0 ∨ i = 1 ∨ i = 2 →
      coordAt (shiftCoord sn (reflectCoord rn (0, 0, 0))) i = 0 ∨
      coordAt (shiftCoord sn (reflectCoord rn (0, 0, 0))) i = Real.pi / 2 := by
    rintro i (rfl | rfl | rfl)
    · simp only [coordAt, shiftCoord, reflectCoord, mul_zero, add_zero]
      rcases hs1 with h | h <;> rw [h] <;> simp
    · simp only [coordAt, shiftCoord, reflectCoord, mul_zero, add_zero]
      rcases hs2 with h | h <;> rw [h] <;> simp
    · simp only [coordAt, shiftCoord, reflectCoord, mul_zero, add_zero]
      rcases hs3 with h | h <;> rw [h] <;> simp
  have hnear : ∀ p ∈ pairList,
      ¬ nearp (coordAt (shiftCoord sn (reflectCoord rn (0, 0, 0))) p.1)
          (coordAt ((1 : ℝ), (1 : ℝ), (1 : ℝ)) p.2) Real.pi (1 / 100) := by
    intro p hp
    have hp' : p = ((0 : ℤ), (0 : ℤ)) ∨ p = (0, 1) ∨ p = (0, 2) ∨ p = (1, 0) ∨ p = (1, 1) ∨
        p = (1, 2) ∨ p = (2, 0) ∨ p = (2, 1) ∨ p = (2, 2) := by simpa [pairList] using hp
    have h1 : p.1 = 0 ∨ p.1 = 1 ∨ p.1 = 2 := by
      rcases hp' with rfl | rfl | rfl | rfl | rfl | rfl | rfl | rfl | rfl <;> simp
    have h2 : coordAt ((1 : ℝ), (1 : ℝ), (1 : ℝ)) p.2 = 1 := by
      rcases hp' with rfl | rfl | rfl | rfl | rfl | rfl | rfl | rfl | rfl <;> rfl
    rw [h2]
    rcases hval p.1 h1 with h | h <;> rw [h]
    · exact not_nearp_zero_one
    · exact not_nearp_halfpi_one
  simp only [comboResult]
  split
  · rfl
  · rename_i i j heq
    exfalso
    obtain ⟨p, hp, hfp⟩ := List.exists_of_findSome?_eq_some heq
    by_cases hn : nearp (coordAt (shiftCoord sn (reflectCoord rn (0, 0, 0))) p.1)
        (coordAt ((1 : ℝ), (1 : ℝ), (1 : ℝ)) p.2) Real.pi (1 / 100)
    · exact hnear p hp hn
    · rw [if_neg hn] at hfp
      exact Option.noConfusion hfp

theorem searchHop_A2_none : searchHop (0, 0, 0) (1, 1, 1) 0 = none := by
  unfold searchHop
  refine List.findSome?_eq_none_iff.mpr fun rn _ => ?_
  exact List.findSome?_eq_none_iff.mpr fun sn _ => comboResult_A2_none rn sn

theorem processHops_append (a2c : Alcove → Alcove) (ops : List OpEntry) (l1 l2 : List Hop) :
    ∀ st, processHops a2c ops (l1 ++ l2) st =
      match processHops a2c ops l1 st with
      | Except.error e => Except.error e
      | Except.ok st' => processHops a2c ops l2 st' := by
  induction l1 with
  | nil => intro st; rfl
  | cons hop rest ih =>
    intro st
    simp only [List.cons_append, processHops]
    cases hopStep a2c ops st hop with
    | error e => rfl
    | ok st' => exact ih st'

/-- Claim C3: for a hop beyond the first on which the whole
reflection-by-shift search is exhausted (the search function returns no
solution, i.e. no combination yields both a `nearp` axis pair and a NaN-free
backsolve), the synthesis returns the typed `NoBacksolution` signal — a
recoverable `Except` value, not a wrong circuit and not some unrelated
failure. -/
theorem claim_C3_theorem (a2c : Alcove → Alcove) (ops : List OpEntry) (h0 : Hop)
    (pre post : List Hop) (hop : Hop) (st : Circuit × ℂ)
    (hall : allXX a2c ops)
    (hpre : processHops a2c ops pre (initState a2c ops h0) = Except.ok st)
    (hsearch : searchHop (a2c hop.src) (a2c hop.tgt) (coordOf a2c ops hop.op).1 = none) :
    xx_circuit_from_decomposition a2c (h0 :: (pre ++ hop :: post)) ops =
      Except.error SynthError.noBacksolution := by
  unfold xx_circuit_from_decomposition
  rw [if_pos hall]
  show (match processHops a2c ops (pre ++ hop :: post) (initState a2c ops h0) with
        | Except.error e => Except.error e
        | Except.ok (qc, phi) => Except.ok (qc, -(Complex.log phi).im)) = _
  rw [processHops_append a2c ops pre (hop :: post) (initState a2c ops h0), hpre]
  show (match (match hopStep a2c ops st hop with
               | Except.error e => Except.error e
               | Except.ok st' => processHops a2c ops post st') with
        | Except.error e => Except.error e
        | Except.ok (qc, phi) => Except.ok (qc, -(Complex.log phi).im)) = _
  unfold hopStep
  rw [hsearch]

/-- Claim C3 (witness): a concrete unrealizable hop — target `(1, 1, 1)` from
source `(0, 0, 0)` — exhausts all 32 combinations and yields the typed
signal. -/
theorem claim_C3_witness :
    xx_circuit_from_decomposition a2cId
        [⟨(0, 0, 0), "op", (0, 0, 0)⟩, ⟨(0, 0, 0), "op", (1, 1, 1)⟩] [⟨"op", (0, 0, 0), []⟩] =
      Except.error SynthError.noBacksolution := by
  have hall : allXX a2cId [⟨"op", (0, 0, 0), []⟩] := by
    intro o ho
    have ho' : o = (⟨"op", (0, 0, 0), []⟩ : OpEntry) := by simpa using ho
    subst ho'
    have hc : coordOf a2cId [⟨"op", (0, 0, 0), []⟩] (OpEntry.mk "op" (0, 0, 0) []).label
        = ((0 : ℝ), (0 : ℝ), (0 : ℝ)) := rfl
    unfold xxPred
    rw [hc]
    norm_num [epsilon]
  have hsearch : searchHop (a2cId (0, 0, 0)) (a2cId (1, 1, 1))
      (coordOf a2cId [⟨"op", (0, 0, 0), []⟩] "op").1 = none := searchHop_A2_none
  exact claim_C3_theorem a2cId [⟨"op", (0, 0, 0), []⟩] ⟨(0, 0, 0), "op", (0, 0, 0)⟩ [] []
    ⟨(0, 0, 0), "op", (1, 1, 1)⟩ (initState a2cId [⟨"op", (0, 0, 0), []⟩]
      ⟨(0, 0, 0), "op", (0, 0, 0)⟩) hall rfl hsearch

/-! ## A concrete successful hop: evaluation helpers -/

theorem sarccos_deg : safe_arccos (1 - Real.cos (1 / 100) ^ 2) 0 = some 0 := by
  have hsinpos : 0 < Real.sin (1 / 100) :=
    Real.sin_pos_of_pos_of_lt_pi (by norm_num) (by linarith [Real.pi_gt_three])
  have hsinlt : Real.sin (1 / 100) < 1 / 100 := Real.sin_lt (by norm_num)
  have hid : 1 - Real.cos (1 / 100) ^ 2 = Real.sin (1 / 100) ^ 2 := by
    have := Real.sin_sq_add_cos_sq (1 / 100)
    linarith
  have hpos : 0 < 1 - Real.cos (1 / 100) ^ 2 := by
    rw [hid]
    positivity
  have hlt : 1 - Real.cos (1 / 100) ^ 2 < 5 / 1000 := by
    rw [hid]
    nlinarith
  unfold safe_arccos
  rw [if_pos (⟨by rw [abs_of_pos hpos, abs_zero]; exact hpos,
    by rw [sub_zero, abs_of_pos hpos]; exact hlt⟩ :
      |1 - Real.cos (1 / 100) ^ 2| > |(0 : ℝ)| ∧ |1 - Real.cos (1 / 100) ^ 2 - 0| < 5 / 1000)]

theorem decompA1 : decompose_xxyy_into_xxyy_xx (1 / 100) 0 0 0 0 = some cexAngles := by
  have hsome : (decompose_xxyy_into_xxyy_xx (1 / 100) 0 0 0 0).isSome := by
    simp only [decompose_xxyy_into_xxyy_xx]
    rw [show (0 : ℝ) - 0 = 0 by ring, show (0 : ℝ) + 0 = 0 by ring,
        show (1 : ℝ) / 100 - 0 = 1 / 100 by ring, show (1 : ℝ) / 100 + 0 = 1 / 100 by ring,
        Real.cos_zero, Real.sin_zero,
        show (1 : ℝ) ^ 2 * (1 : ℝ) ^ 2 + (0 : ℝ) ^ 2 * (0 : ℝ) ^ 2 - Real.cos (1 / 100) ^ 2
          = 1 - Real.cos (1 / 100) ^ 2 by ring,
        show (2 : ℝ) * 1 * 1 * 0 * 0 = 0 by ring, sarccos_deg]
    simp [apply_ite]
  cases hd : decompose_xxyy_into_xxyy_xx (1 / 100) 0 0 0 0 with
  | none => rw [hd] at hsome; exact absurd hsome (by simp)
  | some t =>
    unfold cexAngles
    rw [hd]
    rfl

theorem coordAt_zero (c : ℝ × ℝ × ℝ) : coordAt c 0 = c.1 := rfl

theorem coordAt_one (c : ℝ × ℝ × ℝ) : coordAt c 1 = c.2.1 := rfl

theorem coordAt_two (c : ℝ × ℝ × ℝ) : coordAt c 2 = c.2.2 := rfl

theorem comboA1 :
    comboResult (1, 0, 0) (1, 1 / 100, 0) 0 .noReflection .noShift = some cexSol := by
  have hshift : shiftCoord .noShift (reflectCoord .noReflection (1, 0, 0))
      = ((1 : ℝ), (0 : ℝ), (0 : ℝ)) := by
    simp [shiftCoord, reflectCoord, shiftScalars, reflScalars]
  have hnear : nearp (1 : ℝ) 1 Real.pi (1 / 100) := nearp_self 1 Real.pi (1 / 100) (by norm_num)
  simp only [comboResult, hshift, pairList, List.findSome?_cons, coordAt_zero, coordAt_one,
    coordAt_two]
  rw [if_pos hnear]
  dsimp only
  rw [show othersOf 0 = ((1 : ℤ), (2 : ℤ)) from rfl]
  simp only [coordAt_one, coordAt_two]
  rw [decompA1]
  rfl

theorem searchA1 : searchHop (1, 0, 0) (1, 1 / 100, 0) 0 = some cexSol := by
  simp only [searchHop, reflNames, shiftNames, List.findSome?_cons, comboA1]

/-! ## Synthesis evaluation helpers for the first hop -/

theorem allXX_A : allXX a2cId [⟨"op", (0, 0, 0), []⟩] := by
  intro o ho
  have ho' : o = (⟨"op", (0, 0, 0), []⟩ : OpEntry) := by simpa using ho
  subst ho'
  have hc : coordOf a2cId [⟨"op", (0, 0, 0), []⟩] (OpEntry.mk "op" (0, 0, 0) []).label
      = ((0 : ℝ), (0 : ℝ), (0 : ℝ)) := rfl
  unfold xxPred
  rw [hc]
  norm_num [epsilon]

theorem allXX_B : allXX a2cId catalogB := by
  intro o ho
  have ho' : o = (⟨"op", (3 / 10, 0, 0), [⟨.rx, 1, 0⟩]⟩ : OpEntry) := by
    simpa [catalogB] using ho
  subst ho'
  have hc : coordOf a2cId catalogB (OpEntry.mk "op" (3 / 10, 0, 0) [⟨.rx, 1, 0⟩]).label
      = ((3 / 10 : ℝ), (0 : ℝ), (0 : ℝ)) := rfl
  unfold xxPred
  rw [hc]
  norm_num [epsilon]

/-- Single-hop synthesis, `≤ 1/4` branch of the first-hop special case. -/
theorem synth_single_le (a2c : Alcove → Alcove) (ops : List OpEntry) (h0 : Hop)
    (hall : allXX a2c ops) (h14 : h0.tgt.1 ≤ 1 / 4) :
    xx_circuit_from_decomposition a2c [h0] ops = Except.ok (gateOf ops h0.op, 0) := by
  unfold xx_circuit_from_decomposition
  rw [if_pos hall]
  have hinit : initState a2c ops h0 = (gateOf ops h0.op, 1) := by
    unfold initState
    rw [if_pos h14]
  show (match processHops a2c ops [] (initState a2c ops h0) with
        | Except.error e => Except.error e
        | Except.ok (qc, phi) => Except.ok (qc, -(Complex.log phi).im)) = _
  rw [hinit]
  show Except.ok (gateOf ops h0.op, -(Complex.log 1).im) = _
  rw [Complex.log_one]
  norm_num

/-- Single-hop synthesis, `> 1/4` branch of the first-hop special case: the
extra `reflect XX, YY` / `X shift` wrapper appears and the phase angle is
`-Im log(-i) = π/2`. -/
theorem synth_single_gt (a2c : Alcove → Alcove) (ops : List OpEntry) (h0 : Hop)
    (hall : allXX a2c ops) (h14 : ¬h0.tgt.1 ≤ 1 / 4) :
    xx_circuit_from_decomposition a2c [h0] ops =
      Except.ok (reflCircuit .reflectXXYY ++ gateOf ops h0.op ++
        invCircuit (reflCircuit .reflectXXYY) ++ shiftCircuit .xShift, Real.pi / 2) := by
  unfold xx_circuit_from_decomposition
  rw [if_pos hall]
  have hinit : initState a2c ops h0 = (reflCircuit .reflectXXYY ++ gateOf ops h0.op ++
      invCircuit (reflCircuit .reflectXXYY) ++ shiftCircuit .xShift,
      1 * (shiftPhase .xShift * reflPhase .reflectXXYY)) := by
    unfold initState
    rw [if_neg h14]
  show (match processHops a2c ops [] (initState a2c ops h0) with
        | Except.error e => Except.error e
        | Except.ok (qc, phi) => Except.ok (qc, -(Complex.log phi).im)) = _
  rw [hinit]
  show Except.ok (_, -(Complex.log (1 * (shiftPhase .xShift * reflPhase .reflectXXYY))).im) = _
  have hphase : (1 : ℂ) * (shiftPhase .xShift * reflPhase .reflectXXYY) = -Complex.I := by
    simp [shiftPhase, reflPhase]
  rw [hphase, Complex.log_neg_I]
  norm_num [Complex.mul_im]

/-! ## Claim C2: the first-hop special case -/

/-- Claim C2 (counterexample): the branch is keyed on the first hop's *target*
alcove coordinate, not on the native interaction's own coordinate parameter.
Here the interaction's own parameter is `0.3 > 1/4`, yet because the recorded
target coordinate is `0.2 ≤ 1/4` the assembler uses the raw fragment with
phase angle `0` — no reflect/shift wrapper, no phase update — contradicting
the claim's prediction for parameter `0.3`. -/
theorem claim_C2_counterexample :
    (coordOf a2cId catalogB "op").1 = 3 / 10 ∧ (1 / 4 : ℝ) < 3 / 10 ∧
    xx_circuit_from_decomposition a2cId [hopB5] catalogB =
      Except.ok ([⟨.rx, 1, 0⟩], 0) := by
  refine ⟨rfl, by norm_num, ?_⟩
  exact synth_single_le a2cId catalogB hopB5 allXX_B (by norm_num : (1 / 5 : ℝ) ≤ 1 / 4)

/-- Claim C2 (amended): the special case is decided by the first hop's target
alcove coordinate's first component (which equals the interaction's own
parameter on well-formed paths): at most `1/4` the native fragment is the
output as-is with phase angle `0`; above `1/4` it is wrapped in
`reflect XX, YY` and `X shift` and the phase angle becomes
`-Im log((-i)·1) = π/2 ≠ 0`. -/
theorem claim_C2_amended (a2c : Alcove → Alcove) (ops : List OpEntry) (h0 : Hop)
    (hall : allXX a2c ops) :
    (h0.tgt.1 ≤ 1 / 4 →
      xx_circuit_from_decomposition a2c [h0] ops = Except.ok (gateOf ops h0.op, 0)) ∧
    (1 / 4 < h0.tgt.1 →
      xx_circuit_from_decomposition a2c [h0] ops =
        Except.ok (reflCircuit .reflectXXYY ++ gateOf ops h0.op ++
          invCircuit (reflCircuit .reflectXXYY) ++ shiftCircuit .xShift, Real.pi / 2)) :=
  ⟨fun h14 => synth_single_le a2c ops h0 hall h14,
   fun h14 => synth_single_gt a2c ops h0 hall (not_le.mpr h14)⟩

/-- Claim C2 (witness): both branches exercised at concrete single-hop
paths (target parameter `0` and target parameter `0.3`). -/
theorem claim_C2_witness :
    xx_circuit_from_decomposition a2cId [hopA0] [⟨"op", (0, 0, 0), []⟩] =
      Except.ok ([], 0) ∧
    xx_circuit_from_decomposition a2cId [hopB3] catalogB =
      Except.ok ([⟨.rz, Real.pi, 0⟩] ++ [⟨.rx, 1, 0⟩] ++ [⟨.rz, -Real.pi, 0⟩] ++
        [⟨.rx, Real.pi, 0⟩, ⟨.rx, Real.pi, 1⟩], Real.pi / 2) := by
  constructor
  · exact (claim_C2_amended a2cId [⟨"op", (0, 0, 0), []⟩] hopA0 allXX_A).1
      (by norm_num : (0 : ℝ) ≤ 1 / 4)
  · exact (claim_C2_amended a2cId catalogB hopB3 allXX_B).2
      (by norm_num : (1 / 4 : ℝ) < 3 / 10)

/-! ## Claim C4: phase accumulation -/

theorem processHops_phase (a2c : Alcove → Alcove) (ops : List OpEntry) :
    ∀ (hops : List Hop) (st : Circuit × ℂ) (qc : Circuit) (phi : ℂ),
      processHops a2c ops hops st = Except.ok (qc, phi) →
      phi = st.2 * (hops.map (fun h =>
        solPhase (searchHop (a2c h.src) (a2c h.tgt) (coordOf a2c ops h.op).1))).prod := by
  intro hops
  induction hops with
  | nil =>
    intro st qc phi h
    have hst : st = (qc, phi) := by
      injection h
    rw [List.map_nil, List.prod_nil, mul_one, hst]
  | cons hop rest ih =>
    intro st qc phi h
    rw [show processHops a2c ops (hop :: rest) st = (match hopStep a2c ops st hop with
        | Except.error e => Except.error e
        | Except.ok st' => processHops a2c ops rest st') from rfl] at h
    rcases hsearch : searchHop (a2c hop.src) (a2c hop.tgt) (coordOf a2c ops hop.op).1
      with _ | sol
    · rw [show hopStep a2c ops st hop = Except.error .noBacksolution from by
        unfold hopStep; rw [hsearch]] at h
      exact absurd h (by simp)
    · rw [show hopStep a2c ops st hop = Except.ok (buildHop sol st.1 (gateOf ops hop.op),
          st.2 * (reflPhase sol.reflName * shiftPhase sol.shiftName)) from by
        unfold hopStep; rw [hsearch]] at h
      have hrec := ih _ _ _ h
      rw [hrec, List.map_cons, List.prod_cons]
      dsimp only
      rw [hsearch, show solPhase (some sol)
        = reflPhase sol.reflName * shiftPhase sol.shiftName from rfl]
      ring

/-- Claim C4: whenever synthesis succeeds, the returned global phase angle is
the negative imaginary part of the (principal) logarithm of the accumulated
multiplicative phase: the phase starts at `1`, picks up
`reflectionPhase·shiftPhase` once at hop 0 when the `> 1/4` wrapper fires and
once per later hop for the chosen reflection/shift, and is converted by
`-Im log` at the end. -/
theorem claim_C4_theorem (a2c : Alcove → Alcove) (ops : List OpEntry) (path : List Hop)
    (c : Circuit) (theta : ℝ)
    (h : xx_circuit_from_decomposition a2c path ops = Except.ok (c, theta)) :
    theta = -(Complex.log (specPhaseProduct a2c ops path)).im := by
  unfold xx_circuit_from_decomposition at h
  by_cases hall : allXX a2c ops
  · rw [if_pos hall] at h
    cases path with
    | nil =>
      simp only [Except.ok.injEq, Prod.mk.injEq] at h
      rw [← h.2]
      unfold specPhaseProduct
      rw [Complex.log_one]
      norm_num
    | cons h0 hops =>
      have h' : (match processHops a2c ops hops (initState a2c ops h0) with
          | Except.error e => Except.error e
          | Except.ok (qc, phi) => Except.ok (qc, -(Complex.log phi).im)) =
          Except.ok (c, theta) := h
      rcases hph : processHops a2c ops hops (initState a2c ops h0) with e | st2
      · rw [hph] at h'
        exact absurd h' (by simp)
      · obtain ⟨qc, phi⟩ := st2
        rw [hph] at h'
        simp only [Except.ok.injEq, Prod.mk.injEq] at h'
        obtain ⟨-, htheta⟩ := h'
        have hphi := processHops_phase a2c ops hops (initState a2c ops h0) qc phi hph
        rw [← htheta, hphi]
        have hspec : specPhaseProduct a2c ops (h0 :: hops) =
            (if h0.tgt.1 ≤ 1 / 4 then 1 else reflPhase .reflectXXYY * shiftPhase .xShift) *
              (hops.map (fun h =>
                solPhase (searchHop (a2c h.src) (a2c h.tgt) (coordOf a2c ops h.op).1))).prod := rfl
        rw [hspec]
        have h2 : (initState a2c ops h0).2 = (if h0.tgt.1 ≤ 1 / 4 then 1
            else 1 * (shiftPhase .xShift * reflPhase .reflectXXYY)) := by
          unfold initState
          split <;> rfl
        rw [h2]
        by_cases h14 : h0.tgt.1 ≤ 1 / 4
        · rw [if_pos h14, if_pos h14]
        · rw [if_neg h14, if_neg h14]
          ring_nf
  · rw [if_neg hall] at h
    exact absurd h (by simp)

/-- Claim C4 (witness): on the single-hop `> 1/4` path, the returned angle
`π/2` is `-Im log` of the product `(-i)·1` of the table phases. -/
theorem claim_C4_witness :
    Real.pi / 2 = -(Complex.log (specPhaseProduct a2cId catalogB [hopB3])).im :=
  claim_C4_theorem a2cId catalogB [hopB3] _ (Real.pi / 2)
    (synth_single_gt a2cId catalogB hopB3 allXX_B (by norm_num : ¬(3 / 10 : ℝ) ≤ 1 / 4))

/-! ## Claim C8: deterministic first-success search order -/

theorem findSome?_map' {α β γ : Type} (h : α → β) (g : β → Option γ) :
    ∀ l : List α, (l.map h).findSome? g = l.findSome? (fun a => g (h a)) := by
  intro l
  induction l with
  | nil => rfl
  | cons a rest ih =>
    rw [List.map_cons, List.findSome?_cons, List.findSome?_cons]
    cases g (h a) with
    | none => exact ih
    | some b => rfl

theorem findSome?_flatMap' {α β γ : Type} (h : α → List β) (g : β → Option γ) :
    ∀ l : List α, (l.flatMap h).findSome? g = l.findSome? (fun a => (h a).findSome? g) := by
  intro l
  induction l with
  | nil => rfl
  | cons a rest ih =>
    rw [List.flatMap_cons, List.findSome?_append, List.findSome?_cons]
    cases hfa : (h a).findSome? g with
    | none => exact ih
    | some b => rfl

theorem findSome?_of_take_none {α β : Type} (f : α → Option β) :
    ∀ (l : List α) (k : ℕ) (c : α) (v : β),
      (∀ x ∈ l.take k, f x = none) → l[k]? = some c → f c = some v →
      l.findSome? f = some v := by
  intro l
  induction l with
  | nil =>
    intro k c v _ h2 _
    simp at h2
  | cons a rest ih =>
    intro k c v h1 h2 h3
    cases k with
    | zero =>
      have ha : a = c := by simpa using h2
      subst ha
      rw [List.findSome?_cons, h3]
    | succ k' =>
      have ha : f a = none := h1 a (by simp [List.take_succ_cons])
      rw [List.findSome?_cons, ha]
      exact ih k' c v (fun x hx => h1 x (by simp [List.take_succ_cons, hx])) (by simpa using h2) h3

/-- The nested reflection/shift loops equal the first-success scan of the
flattened 32-element product list in table order. -/
theorem searchHop_eq_flat (src tgt : ℝ × ℝ × ℝ) (a2 : ℝ) :
    searchHop src tgt a2 = comboOrder.findSome? (fun c => comboResult src tgt a2 c.1 c.2) := by
  unfold searchHop comboOrder
  rw [findSome?_flatMap']
  refine congrArg (fun f => List.findSome? f reflNames) ?_
  funext rn
  rw [findSome?_map']


/-- Claim C8: the synthesis search is deterministic by construction (it is a
pure function of the decomposition path and catalog), and the solution it
returns is exactly the first valid combination in the fixed table-declared
order of the 4×8 reflection-by-shift product (each combination's inner
nine-pair scan being row-major): if every combination before index `k` is
invalid and the combination at `k` is valid, the search returns that
combination's solution. -/
theorem claim_C8_theorem (src tgt : Alcove) (a2 : ℝ) (k : ℕ) (c : ReflName × ShiftName)
    (sol : Sol)
    (h1 : ∀ c' ∈ comboOrder.take k, comboResult src tgt a2 c'.1 c'.2 = none)
    (h2 : comboOrder[k]? = some c)
    (h3 : comboResult src tgt a2 c.1 c.2 = some sol) :
    searchHop src tgt a2 = some sol := by
  rw [searchHop_eq_flat]
  exact findSome?_of_take_none _ comboOrder k c sol h1 h2 h3

/-- Claim C8 (witness): on the concrete realizable hop, the very first
combination (no reflection, no shift) is valid and is what the search
returns. -/
theorem claim_C8_witness : searchHop (1, 0, 0) (1, 1 / 100, 0) 0 = some cexSol :=
  claim_C8_theorem (1, 0, 0) (1, 1 / 100, 0) 0 0 (.noReflection, .noShift) cexSol
    (by intro c' hc'; simp at hc') rfl comboA1

/-! ## Claim C1: the per-hop composition nesting -/

theorem hopStepA1 : hopStep a2cId [⟨"op", (0, 0, 0), []⟩] ([], 1) hopA1 =
    Except.ok (buildHop cexSol [] [],
      1 * (reflPhase ReflName.noReflection * shiftPhase ShiftName.noShift)) := by
  unfold hopStep
  have hs : searchHop (a2cId hopA1.src) (a2cId hopA1.tgt)
      (coordOf a2cId [⟨"op", (0, 0, 0), []⟩] hopA1.op).1 = some cexSol := by
    have h1 : a2cId hopA1.src = ((1 : ℝ), (0 : ℝ), (0 : ℝ)) := rfl
    have h2 : a2cId hopA1.tgt = ((1 : ℝ), (1 / 100 : ℝ), (0 : ℝ)) := rfl
    have h3 : (coordOf a2cId [⟨"op", (0, 0, 0), []⟩] hopA1.op) = ((0 : ℝ), (0 : ℝ), (0 : ℝ)) :=
      rfl
    rw [h1, h2, h3]
    exact searchA1
  rw [hs]
  rfl

theorem synthA : xx_circuit_from_decomposition a2cId [hopA0, hopA1] [⟨"op", (0, 0, 0), []⟩] =
    Except.ok (buildHop cexSol [] [], 0) := by
  unfold xx_circuit_from_decomposition
  rw [if_pos allXX_A]
  have hinit : initState a2cId [⟨"op", (0, 0, 0), []⟩] hopA0 = ([], 1) := by
    unfold initState
    rw [if_pos (show hopA0.tgt.1 ≤ 1 / 4 from by norm_num [hopA0])]
    rfl
  show (match processHops a2cId [⟨"op", (0, 0, 0), []⟩] [hopA1]
          (initState a2cId [⟨"op", (0, 0, 0), []⟩] hopA0) with
        | Except.error e => Except.error e
        | Except.ok (qc, phi) => Except.ok (qc, -(Complex.log phi).im)) = _
  rw [hinit]
  have hproc : processHops a2cId [⟨"op", (0, 0, 0), []⟩] [hopA1] ([], 1) =
      Except.ok (buildHop cexSol [] [],
        1 * (reflPhase ReflName.noReflection * shiftPhase ShiftName.noShift)) := by
    show (match hopStep a2cId [⟨"op", (0, 0, 0), []⟩] ([], 1) hopA1 with
          | Except.error e => Except.error e
          | Except.ok st' => processHops a2cId [⟨"op", (0, 0, 0), []⟩] [] st') = _
    rw [hopStepA1]
    rfl
  rw [hproc]
  have hphase : (1 : ℂ) * (reflPhase ReflName.noReflection * shiftPhase ShiftName.noShift) = 1 := by
    simp [reflPhase, shiftPhase]
  rw [hphase]
  show Except.ok (buildHop cexSol [] [], -(Complex.log 1).im) = _
  rw [Complex.log_one]
  norm_num

/-- Claim C1 (counterexample): on a concrete two-hop decomposition, synthesis
succeeds and the circuit built for the second hop differs, as a gate
sequence, from the spec's claimed nesting instantiated with the very same
solved fragments and angles: the code wraps only the previously-built
circuit in the source conjugations (and applies the source shift exactly
once, un-inverted), while the claimed nesting wraps the whole Z-roll/native
block (and uses a matched shift/inverse-shift pair). -/
theorem claim_C1_counterexample :
    xx_circuit_from_decomposition a2cId [hopA0, hopA1] [⟨"op", (0, 0, 0), []⟩] =
      Except.ok (buildHop cexSol [] [], 0) ∧
    buildHop cexSol [] [] ≠
      claimedHopNesting (canonical_rotation_circuit 1 2) (canonical_rotation_circuit 1 2)
        (reflCircuit .noReflection) (shiftCircuit .noShift) [] []
        cexSol.r cexSol.s cexSol.u cexSol.v cexSol.x cexSol.y := by
  refine ⟨synthA, ?_⟩
  intro heq
  have h12 : canonical_rotation_circuit 1 2 =
      [⟨.rz, Real.pi / 2, 0⟩, ⟨.rz, Real.pi / 2, 1⟩, ⟨.ry, Real.pi / 2, 0⟩,
       ⟨.ry, -(Real.pi / 2), 1⟩] := by
    unfold canonical_rotation_circuit
    rw [if_neg (by decide), if_neg (by decide), if_neg (by decide), if_pos rfl]
  have hrefl : reflCircuit ReflName.noReflection = [] := rfl
  have hshift : shiftCircuit ShiftName.noShift = [] := rfl
  rw [show buildHop cexSol [] [] = buildHop
      ⟨.noReflection, .noShift, 1, 2, 1, 2, cexSol.r, cexSol.s, cexSol.u, cexSol.v,
        cexSol.x, cexSol.y⟩ [] [] from rfl] at heq
  simp only [buildHop, claimedHopNesting, h12, hrefl, hshift, invCircuit, invGate,
    List.reverse_cons, List.reverse_nil, List.map_append, List.map_cons, List.map_nil,
    List.nil_append, List.append_nil, List.cons_append, List.append_assoc] at heq
  simp only [List.cons.injEq, Gate.mk.injEq] at heq
  exact absurd heq.2.2.2.2 (by simp)

/-- Claim C1 (amended): for every successfully-processed later hop, the new
circuit is exactly the flat nesting the code realizes: the target axis
rotation conjugates everything; inside it come the `Rz(2x), Rz(2y)` pair,
the native fragment, the `Rz(2u), Rz(2v)` pair, then the previously-built
circuit conjugated by the source reflection and — after the undone
reflection — the source shift applied exactly once, the whole wrapped in the
source axis rotation pair, and finally the `Rz(2r), Rz(2s)` pair; the
running phase is multiplied by the chosen reflection and shift phases. -/
theorem claim_C1_amended (a2c : Alcove → Alcove) (ops : List OpEntry) (st : Circuit × ℂ)
    (hop : Hop) (sol : Sol) (qc' : Circuit) (phi' : ℂ)
    (hsol : searchHop (a2c hop.src) (a2c hop.tgt) (coordOf a2c ops hop.op).1 = some sol)
    (hstep : hopStep a2c ops st hop = Except.ok (qc', phi')) :
    qc' = amendedHopNesting (canonical_rotation_circuit sol.sourceFirst sol.sourceSecond)
        (canonical_rotation_circuit sol.targetFirst sol.targetSecond)
        (reflCircuit sol.reflName) (shiftCircuit sol.shiftName) (gateOf ops hop.op) st.1
        sol.r sol.s sol.u sol.v sol.x sol.y ∧
    phi' = st.2 * (reflPhase sol.reflName * shiftPhase sol.shiftName) := by
  unfold hopStep at hstep
  rw [hsol] at hstep
  injection hstep with h
  rw [Prod.mk.injEq] at h
  obtain ⟨hq, hp⟩ := h
  refine ⟨?_, hp.symm⟩
  rw [← hq]
  unfold buildHop amendedHopNesting
  simp only [List.append_assoc]

/-- Claim C1 (witness): the amended nesting applied to the concrete
successful hop. -/
theorem claim_C1_witness :
    buildHop cexSol [] [] = amendedHopNesting
        (canonical_rotation_circuit cexSol.sourceFirst cexSol.sourceSecond)
        (canonical_rotation_circuit cexSol.targetFirst cexSol.targetSecond)
        (reflCircuit cexSol.reflName) (shiftCircuit cexSol.shiftName)
        (gateOf [⟨"op", (0, 0, 0), []⟩] hopA1.op) []
        cexSol.r cexSol.s cexSol.u cexSol.v cexSol.x cexSol.y ∧
    (1 : ℂ) * (reflPhase ReflName.noReflection * shiftPhase ShiftName.noShift) =
      (1 : ℂ) * (reflPhase cexSol.reflName * shiftPhase cexSol.shiftName) :=
  claim_C1_amended a2cId [⟨"op", (0, 0, 0), []⟩] ([], 1) hopA1 cexSol
    (buildHop cexSol [] [])
    (1 * (reflPhase ReflName.noReflection * shiftPhase ShiftName.noShift))
    (by
      have h1 : a2cId hopA1.src = ((1 : ℝ), (0 : ℝ), (0 : ℝ)) := rfl
      have h2 : a2cId hopA1.tgt = ((1 : ℝ), (1 / 100 : ℝ), (0 : ℝ)) := rfl
      have h3 : (coordOf a2cId [⟨"op", (0, 0, 0), []⟩] hopA1.op) = ((0 : ℝ), (0 : ℝ), (0 : ℝ)) :=
        rfl
      rw [h1, h2, h3]
      exact searchA1)
    hopStepA1

end Monodromy
